import Mathlib

/-!
Shallow embedding of the rust-velocypack codec (src/ser.rs, src/de.rs,
src/error.rs) together with proofs about its behaviour.

Byte buffers are modelled as `List Nat` (each entry a byte value below 256);
machine integers are `Nat` / `Int` with explicit bounds.  Fallible code
returns `Except`.  A Rust panic (out-of-range slice indexing, division by
zero) is the distinguished outcome `Failure.panicked`, kept separate from
the library's own `Error` values, which are `Failure.err`.

The decoder models driving `de::Deserializer` with a self-describing
visitor (`deserialize_any`, as when deserializing into a JSON-like value
tree): scalars through the `parse_*` methods, arrays through
`ArrayDeserializer::next_element_seed`, objects through
`MapDeserializer::next_key_seed` / `next_value_seed`.  The serializer
models `Serializer::serialize_unsigned_int`, `serialize_negative_int`,
`ArraySerializer::end_array` and `MapSerializer::end_map`.
-/

namespace VelocyPack

/-- Little-endian value of a byte list (as in `u64::from_le_bytes` applied to
a zero-extended buffer). -/
def fromLE : List Nat → Nat
  | [] => 0
  | b :: rest => b + 256 * fromLE rest

/-- First `n` little-endian bytes of `v` (`to_le_bytes`, truncated to `n`). -/
def leBytes : Nat → Nat → List Nat
  | 0, _ => []
  | n + 1, v => v % 256 :: leBytes n (v / 256)

/-- The error enum of src/error.rs, including the Expected variants that
src/de.rs constructs. -/
inductive VError where
  | message : String → VError
  | eof : VError
  | expectedBoolean : VError
  | expectedInteger : VError
  | expectedDouble : VError
  | expectedString : VError
  | expectedNull : VError
  | expectedArray : VError
  | expectedObject : VError
  | numberTooLarge : VError
  | invalidUtf8 : VError
  | trailingBytes : Nat → VError
  | unimplemented : Nat → VError
deriving DecidableEq

/-- Outcome of a fallible piece of the Rust code: a returned `Error`, a Rust
panic (out-of-range slice indexing or `usize` division by zero), or fuel
exhaustion of the embedding (never reached at the fuel bounds used here). -/
inductive Failure where
  | err : VError → Failure
  | panicked : Failure
  | fuelOut : Failure
deriving DecidableEq

/-- The JSON-like value tree produced by driving the deserializer with a
self-describing visitor: null, bool, double (kept as its raw IEEE-754 bit
pattern), signed and unsigned 64-bit integers, UTF-8 strings (kept as their
byte encoding), arrays, and objects (key/value entry lists). -/
inductive Value where
  | null : Value
  | bool : Bool → Value
  | double : Nat → Value
  | int : Int → Value
  | uint : Nat → Value
  | str : List Nat → Value
  | arr : List Value → Value
  | obj : List (List Nat × Value) → Value

/-- Is `b` a UTF-8 continuation byte (0x80..=0xbf)? -/
def utf8Cont (b : Nat) : Bool := decide (0x80 ≤ b ∧ b ≤ 0xbf)

/-- Exact UTF-8 validity of a byte list, as checked by
`std::str::from_utf8` (RFC 3629: no overlong forms, no surrogates, no code
points above U+10FFFF). -/
def utf8Valid : List Nat → Bool
  | [] => true
  | b :: rest =>
    if b < 0x80 then utf8Valid rest
    else if 0xc2 ≤ b ∧ b ≤ 0xdf then
      match rest with
      | c :: r => utf8Cont c && utf8Valid r
      | [] => false
    else if b = 0xe0 then
      match rest with
      | c :: d :: r => decide (0xa0 ≤ c ∧ c ≤ 0xbf) && utf8Cont d && utf8Valid r
      | _ => false
    else if (0xe1 ≤ b ∧ b ≤ 0xec) ∨ b = 0xee ∨ b = 0xef then
      match rest with
      | c :: d :: r => utf8Cont c && utf8Cont d && utf8Valid r
      | _ => false
    else if b = 0xed then
      match rest with
      | c :: d :: r => decide (0x80 ≤ c ∧ c ≤ 0x9f) && utf8Cont d && utf8Valid r
      | _ => false
    else if b = 0xf0 then
      match rest with
      | c :: d :: e :: r =>
        decide (0x90 ≤ c ∧ c ≤ 0xbf) && utf8Cont d && utf8Cont e && utf8Valid r
      | _ => false
    else if 0xf1 ≤ b ∧ b ≤ 0xf3 then
      match rest with
      | c :: d :: e :: r => utf8Cont c && utf8Cont d && utf8Cont e && utf8Valid r
      | _ => false
    else if b = 0xf4 then
      match rest with
      | c :: d :: e :: r =>
        decide (0x80 ≤ c ∧ c ≤ 0x8f) && utf8Cont d && utf8Cont e && utf8Valid r
      | _ => false
    else false

/-- `Deserializer::consume_bytes(n)`: `self.input = &self.input[n..]`,
which panics when `n` exceeds the remaining length. -/
def consumeBytes (n : Nat) (input : List Nat) : Except Failure (List Nat) :=
  if n ≤ input.length then .ok (input.drop n) else .error .panicked

/-- `Deserializer::consume_u8/u16/u32/u64`: read `w` little-endian bytes via
`peek_bytes` (which returns `Eof` when short, because it uses `get`). -/
def consumeUInt (w : Nat) (input : List Nat) : Except Failure (Nat × List Nat) :=
  if w ≤ input.length then .ok (fromLE (input.take w), input.drop w)
  else .error (.err .eof)

/-- `Deserializer::consume_padding`: skip a run of 0x00 bytes; `peek_byte`
on an exhausted input yields `Eof`. -/
def skipPadding : List Nat → Except Failure (List Nat)
  | [] => .error (.err .eof)
  | 0 :: rest => skipPadding rest
  | b :: rest => .ok (b :: rest)

/-- `Deserializer::parse_bool` (src/de.rs lines 86-100). -/
def parseBool : List Nat → Except Failure (Bool × List Nat)
  | [] => .error (.err .eof)
  | 0x19 :: rest => .ok (false, rest)
  | 0x1a :: rest => .ok (true, rest)
  | _ :: _ => .error (.err .expectedBoolean)

/-- `Deserializer::parse_double` (src/de.rs lines 102-117); the result is the
raw 64-bit pattern handed to `f64::from_bits`.  After the 0x1b tag the code
slices `self.input[..8]` directly, which panics when short. -/
def parseDouble : List Nat → Except Failure (Nat × List Nat)
  | [] => .error (.err .eof)
  | 0x1b :: rest =>
    if 8 ≤ rest.length then .ok (fromLE (rest.take 8), rest.drop 8)
    else .error .panicked
  | _ :: _ => .error (.err .expectedDouble)

/-- The message built by `parse_signed` for a byte length it does not
handle. -/
def invalidSignedLenMsg (n : Nat) : String :=
  "Invalid byte length for signed integer: " ++ toString n ++
    " (valid: 1, 2, 4, 8)"

/-- The signed integer types `parse_signed` can be asked for. -/
inductive SInt where
  | i8 : SInt
  | i16 : SInt
  | i32 : SInt
  | i64 : SInt
deriving DecidableEq

/-- Bit width of the requested signed type. -/
def sintBits : SInt → Nat
  | .i8 => 8
  | .i16 => 16
  | .i32 => 32
  | .i64 => 64

/-- Largest value of the requested signed type (`T::MAX`). -/
def sintMax (t : SInt) : Int := 2 ^ (sintBits t - 1) - 1

/-- Smallest value of the requested signed type (`T::MIN`). -/
def sintMin (t : SInt) : Int := -(2 ^ (sintBits t - 1))

/-- Two's-complement reading of a `w`-byte little-endian unsigned value
(`i8/i16/i32/i64::from_le_bytes` followed by widening `as i64`). -/
def signExtend (w : Nat) (u : Nat) : Int :=
  if u < 2 ^ (8 * w - 1) then (u : Int) else (u : Int) - 2 ^ (8 * w)

/-- `Deserializer::parse_unsigned::<T>` (src/de.rs lines 173-200), with
`tyMax = T::MAX` as a natural number.  After an 0x28..=0x2f tag the code
slices `self.input[..n_bytes]` directly, which panics when short. -/
def parseUnsigned (tyMax : Nat) : List Nat → Except Failure (Nat × List Nat)
  | [] => .error (.err .eof)
  | b :: rest =>
    if 0x28 ≤ b ∧ b ≤ 0x2f then
      let nBytes := b - 0x27
      if nBytes ≤ rest.length then
        let v := fromLE (rest.take nBytes)
        if v ≤ tyMax then .ok (v, rest.drop nBytes)
        else .error (.err .numberTooLarge)
      else .error .panicked
    else if 0x30 ≤ b ∧ b ≤ 0x39 then
      if b - 0x30 ≤ tyMax then .ok (b - 0x30, rest)
      else .error (.err .numberTooLarge)
    else .error (.err .expectedInteger)

/-- `Deserializer::parse_signed::<T>` (src/de.rs lines 119-171).  Small
negative tags 0x3a..=0x3f decode directly; tags 0x20..=0x27 decode a
little-endian two's-complement value, but only byte lengths 1, 2, 4 and 8
are implemented — lengths 3, 5, 6, 7 return `Error::Message(..)`; every
other tag falls through to `parse_unsigned::<u64>` followed by a
`T::try_from` narrowing check. -/
def parseSigned (ty : SInt) : List Nat → Except Failure (Int × List Nat)
  | [] => .error (.err .eof)
  | b :: rest =>
    if 0x3a ≤ b ∧ b ≤ 0x3f then
      .ok ((b : Int) - 0x40, rest)
    else if 0x20 ≤ b ∧ b ≤ 0x27 then
      let nBytes := b - 0x1f
      if nBytes = 1 ∨ nBytes = 2 ∨ nBytes = 4 ∨ nBytes = 8 then
        if nBytes ≤ rest.length then
          let v := signExtend nBytes (fromLE (rest.take nBytes))
          if sintMin ty ≤ v ∧ v ≤ sintMax ty then .ok (v, rest.drop nBytes)
          else .error (.err .numberTooLarge)
        else .error .panicked
      else .error (.err (.message (invalidSignedLenMsg nBytes)))
    else
      match parseUnsigned (2 ^ 64 - 1) (b :: rest) with
      | .ok (v, r) =>
        if (v : Int) ≤ sintMax ty then .ok ((v : Int), r)
        else .error (.err .numberTooLarge)
      | .error e => .error e

/-- `Deserializer::parse_string` (src/de.rs lines 202-235), returning the
UTF-8 byte content.  Both the 8-byte length read after 0xbf and the payload
read slice `self.input` directly, panicking when short. -/
def parseString : List Nat → Except Failure (List Nat × List Nat)
  | [] => .error (.err .eof)
  | b :: rest =>
    if b = 0xbf then
      if 8 ≤ rest.length then
        let len := fromLE (rest.take 8)
        let r := rest.drop 8
        if len ≤ r.length then
          if utf8Valid (r.take len) then .ok (r.take len, r.drop len)
          else .error (.err .invalidUtf8)
        else .error .panicked
      else .error .panicked
    else if 0x40 ≤ b ∧ b ≤ 0xbe then
      let len := b - 0x40
      if len = 0 then .ok ([], rest)
      else if len ≤ rest.length then
        if utf8Valid (rest.take len) then .ok (rest.take len, rest.drop len)
        else .error (.err .invalidUtf8)
      else .error .panicked
    else .error (.err .expectedString)

/-- `deserialize_unit` (src/de.rs lines 365-375): 0x18 is null. -/
def parseNull : List Nat → Except Failure (List Nat)
  | [] => .error (.err .eof)
  | 0x18 :: rest => .ok rest
  | _ :: _ => .error (.err .expectedNull)

/-- Does writing the 7 payload bits of byte `b` at bit position `idx` of the
deserializer's fixed 8-byte buffer overflow it?  `BitSlice::set` panics when
a set bit would land at position 64 or above. -/
def bitsOverflow (b idx : Nat) : Bool :=
  (List.range 7).any fun n => b / 2 ^ n % 2 == 1 && decide (64 ≤ idx + n)

/-- Forward variable-length length field of the compact formats
(src/de.rs lines 695-716): read bytes, accumulating 7 payload bits each,
until one with a clear top bit; returns the value, the number of bytes read
and the rest of the input. -/
def fwdVarint : List Nat → Nat → Nat → Nat → Except Failure (Nat × Nat × List Nat)
  | [], _, _, _ => .error (.err .eof)
  | b :: rest, idx, acc, cnt =>
    if bitsOverflow b idx then .error .panicked
    else
      let acc2 := acc + b % 128 * 2 ^ idx
      if b / 128 % 2 = 0 then .ok (acc2, cnt + 1, rest)
      else fwdVarint rest (idx + 7) acc2 (cnt + 1)

/-- Reverse variable-length read over an already-reversed region
(src/de.rs lines 723-739): like `fwdVarint` but the region may also run out
without a terminating byte, in which case the loop just ends. -/
def revVarintAux : List Nat → Nat → Nat → Nat → Except Failure (Nat × Nat)
  | [], _, acc, cnt => .ok (acc, cnt)
  | b :: rest, idx, acc, cnt =>
    if bitsOverflow b idx then .error .panicked
    else
      let acc2 := acc + b % 128 * 2 ^ idx
      if b / 128 % 2 = 0 then .ok (acc2, cnt + 1)
      else revVarintAux rest (idx + 7) acc2 (cnt + 1)

/-- Read the reverse varint from the tail of `region` (walking right to
left, stopping at the first byte whose top bit is clear); returns the
decoded value and the number of bytes visited (`index_size`). -/
def readReverseVarint (region : List Nat) : Except Failure (Nat × Nat) :=
  revVarintAux region.reverse 0 0 0

/-- Decode `n` elements in sequence with element decoder `d` (the repeated
`seed.deserialize` calls of `next_element_seed`). -/
def decodeElems (d : List Nat → Except Failure (Value × List Nat)) :
    Nat → List Nat → Except Failure (List Value × List Nat)
  | 0, input => .ok ([], input)
  | n + 1, input => do
    let (v, rest) ← d input
    let (vs, rest2) ← decodeElems d n rest
    .ok (v :: vs, rest2)

/-- One equal-length array body (tags 0x02..=0x05, src/de.rs lines 590-645),
parameterised by the length-field width `w` and by the element decoder `d`
(the seed's `deserialize`).  `byte_length = L - 1 - w`; padding is skipped
but not subtracted; the item count is `byte_length / item_size` with
truncating division (division by zero would panic in Rust). -/
def decodeEqArrayWith (d : List Nat → Except Failure (Value × List Nat))
    (w : Nat) (afterTag : List Nat) : Except Failure (List Value × List Nat) := do
  let (len, r1) ← consumeUInt w afterTag
  let byteLength := len - 1 - w
  let r2 ← skipPadding r1
  let (v, r3) ← d r2
  let itemSize := r2.length - r3.length
  if itemSize = 0 then .error .panicked
  else
    let nItems := byteLength / itemSize
    let (vs, r4) ← decodeElems d (nItems - 1) r3
    .ok (v :: vs, r4)

/-- One indexed array body (tags 0x06..=0x08, src/de.rs lines 646-675):
skip the `w`-byte byte-length, read the `w`-byte count, skip padding, decode
`count` elements, then consume the `count * w` index bytes. -/
def decodeIdxArrayWith (d : List Nat → Except Failure (Value × List Nat))
    (w : Nat) (afterTag : List Nat) : Except Failure (List Value × List Nat) := do
  let r1 ← consumeBytes w afterTag
  let (count, r2) ← consumeUInt w r1
  let r3 ← skipPadding r2
  let (vs, r4) ← decodeElems d count r3
  let r5 ← consumeBytes (count * w) r4
  .ok (vs, r5)

/-- `ArrayDeserializer::next_element_seed` header handling plus the element
loop (src/de.rs lines 581-761), for a given element decoder `d`. -/
def decodeSeqWith (d : List Nat → Except Failure (Value × List Nat)) :
    List Nat → Except Failure (List Value × List Nat)
  | [] => .error (.err .eof)
  | 0x01 :: rest => .ok ([], rest)
  | 0x02 :: rest => decodeEqArrayWith d 1 rest
  | 0x03 :: rest => decodeEqArrayWith d 2 rest
  | 0x04 :: rest => decodeEqArrayWith d 4 rest
  | 0x05 :: rest => decodeEqArrayWith d 8 rest
  | 0x06 :: rest => decodeIdxArrayWith d 1 rest
  | 0x07 :: rest => decodeIdxArrayWith d 2 rest
  | 0x08 :: rest => decodeIdxArrayWith d 4 rest
  | 0x09 :: rest => do
    -- tag 0x09 (src/de.rs lines 676-691): the count is read from the final
    -- 8 bytes of the container, located via the declared byte length, and
    -- consumed together with the index table after the elements.
    let (len, r1) ← consumeUInt 8 rest
    let byteLength := len - 1 - 8
    let start := byteLength - 8
    if start + 8 = byteLength ∧ byteLength ≤ r1.length then
      let count := fromLE ((r1.drop start).take 8)
      do
        let (vs, r2) ← decodeElems d count r1
        let r3 ← consumeBytes (count * 8 + 8) r2
        .ok (vs, r3)
    else .error .panicked
  | 0x13 :: rest => do
    -- compact array (src/de.rs lines 692-744): forward varint byte length,
    -- reverse varint from the tail.  The source then sets
    -- num_items = buf.len(), the length of its fixed 8-byte buffer, i.e.
    -- always 8 — the decoded reverse-varint value is discarded.
    let (byteLength, nv, r1) ← fwdVarint rest 0 0 0
    let headerSize := 1 + nv
    let remaining := byteLength - headerSize
    if remaining ≤ r1.length then do
      let (_count, indexSize) ← readReverseVarint (r1.take remaining)
      let (vs, r2) ← decodeElems d 8 r1
      let r3 ← consumeBytes indexSize r2
      .ok (vs, r3)
    else .error .panicked
  | _ :: _ => .error (.err .expectedArray)

/-- Decode `n` key/value entries (`next_key_seed` / `next_value_seed`): a
string key followed by a value. -/
def decodeEntries (d : List Nat → Except Failure (Value × List Nat)) :
    Nat → List Nat → Except Failure (List (List Nat × Value) × List Nat)
  | 0, input => .ok ([], input)
  | n + 1, input => do
    let (k, r1) ← parseString input
    let (v, r2) ← d r1
    let (es, r3) ← decodeEntries d n r2
    .ok ((k, v) :: es, r3)

/-- One object body (tags 0x0b..=0x12, src/de.rs lines 455-487): read the
`w`-byte byte-length (unused), the `w`-byte count, skip padding, decode the
entries, then consume the `count * w` index bytes. -/
def decodeObjWith (d : List Nat → Except Failure (Value × List Nat))
    (w : Nat) (afterTag : List Nat) :
    Except Failure (List (List Nat × Value) × List Nat) := do
  let (_bl, r1) ← consumeUInt w afterTag
  let (count, r2) ← consumeUInt w r1
  let r3 ← skipPadding r2
  let (es, r4) ← decodeEntries d count r3
  let r5 ← consumeBytes (count * w) r4
  .ok (es, r5)

/-- `MapDeserializer::next_key_seed` header handling plus the entry loop
(src/de.rs lines 447-563), for a given value decoder `d`. -/
def decodeMapWith (d : List Nat → Except Failure (Value × List Nat)) :
    List Nat → Except Failure (List (List Nat × Value) × List Nat)
  | [] => .error (.err .eof)
  | 0x0a :: rest => .ok ([], rest)
  | b :: rest =>
    if b = 0x0b ∨ b = 0x0f then decodeObjWith d 1 rest
    else if b = 0x0c ∨ b = 0x10 then decodeObjWith d 2 rest
    else if b = 0x0d ∨ b = 0x11 then decodeObjWith d 4 rest
    else if b = 0x0e ∨ b = 0x12 then decodeObjWith d 8 rest
    else if b = 0x14 then do
      -- compact object (src/de.rs lines 488-541); as for tag 0x13 the
      -- source sets num_items = buf.len() = 8.
      let (byteLength, nv, r1) ← fwdVarint rest 0 0 0
      let remaining := byteLength - (1 + nv)
      if remaining ≤ r1.length then do
        let (_count, indexSize) ← readReverseVarint (r1.take remaining)
        let (es, r2) ← decodeEntries d 8 r1
        let r3 ← consumeBytes indexSize r2
        .ok (es, r3)
      else .error .panicked
    else .error (.err .expectedObject)

/-- `deserialize_any` (src/de.rs lines 265-278) driving a self-describing
visitor, with `fuel` bounding the container nesting depth. -/
def decodeAny : Nat → List Nat → Except Failure (Value × List Nat)
  | 0, _ => .error .fuelOut
  | fuel + 1, input =>
    match input with
    | [] => .error (.err .eof)
    | b :: _ =>
      if (1 ≤ b ∧ b ≤ 9) ∨ b = 0x13 then do
        let (vs, rest) ← decodeSeqWith (decodeAny fuel) input
        .ok (.arr vs, rest)
      else if (0x0a ≤ b ∧ b ≤ 0x12) ∨ b = 0x14 then do
        let (es, rest) ← decodeMapWith (decodeAny fuel) input
        .ok (.obj es, rest)
      else if b = 0x18 then do
        let rest ← parseNull input
        .ok (.null, rest)
      else if b = 0x19 ∨ b = 0x1a then do
        let (v, rest) ← parseBool input
        .ok (.bool v, rest)
      else if b = 0x1b then do
        let (bits, rest) ← parseDouble input
        .ok (.double bits, rest)
      else if (0x20 ≤ b ∧ b ≤ 0x27) ∨ (0x3a ≤ b ∧ b ≤ 0x3f) then do
        let (v, rest) ← parseSigned .i64 input
        .ok (.int v, rest)
      else if 0x28 ≤ b ∧ b ≤ 0x39 then do
        let (v, rest) ← parseUnsigned (2 ^ 64 - 1) input
        .ok (.uint v, rest)
      else if 0x40 ≤ b ∧ b ≤ 0xbf then do
        let (s, rest) ← parseString input
        .ok (.str s, rest)
      else .error (.err (.unimplemented b))

/-- `first_from_bytes` (src/de.rs lines 252-256): decode one value and also
return the unconsumed tail.  The nesting depth of any value in `s` is at
most `s.length`, so `s.length + 1` fuel never runs out. -/
def firstFromBytes (s : List Nat) : Except Failure (Value × List Nat) :=
  decodeAny (s.length + 1) s

/-- `from_bytes` (src/de.rs lines 239-246): error with `TrailingBytes(n)`
when `n > 0` bytes remain after the first value. -/
def fromBytes (s : List Nat) : Except Failure Value :=
  match firstFromBytes s with
  | .ok (v, rest) =>
    if rest = [] then .ok v else .error (.err (.trailingBytes rest.length))
  | .error e => .error e

/-- The scan of `serialize_unsigned_int` (src/ser.rs lines 46-60): walk the
eight little-endian bytes of `v` from index `i` downwards and return the
index of the first nonzero byte; `none` when all scanned bytes are zero (the
loop then emits nothing). -/
def topByteScan (v : Nat) : Nat → Option Nat
  | 0 => if v % 256 ≠ 0 then some 0 else none
  | i + 1 =>
    if v / 2 ^ (8 * (i + 1)) % 256 ≠ 0 then some (i + 1) else topByteScan v i

/-- `Serializer::serialize_unsigned_int` (src/ser.rs lines 46-60): values
below 10 become a single small-integer byte; otherwise tag `0x28 + k`
followed by the first `k + 1` little-endian bytes, where `k` is the highest
nonzero byte index. -/
def serializeUnsignedInt (v : Nat) : List Nat :=
  if v < 10 then [0x30 + v]
  else
    match topByteScan v 7 with
    | some k => (0x28 + k) :: (leBytes 8 v).take (k + 1)
    | none => []

/-- The byte scan of `serialize_negative_int` (src/ser.rs lines 28-41):
walk the two's-complement little-endian bytes `b` from index `i` downwards
to the first byte that is not 0xff; at index 0 a byte below 0x80 gets the
special two-byte encoding with an explicit 0xff sign byte. -/
def negLoop (b : List Nat) : Nat → List Nat
  | 0 =>
    if b.getD 0 0 ≠ 0xff then
      if b.getD 0 0 < 0x80 then 0x21 :: (b.take 1 ++ [0xff])
      else 0x20 :: b.take 1
    else []
  | i + 1 =>
    if b.getD (i + 1) 0 ≠ 0xff then (0x20 + (i + 1)) :: b.take (i + 2)
    else negLoop b i

/-- `Serializer::serialize_negative_int` (src/ser.rs lines 21-44), for
`v < 0`: values above −7 become a single small-negative byte `0x40 + v`;
otherwise the byte scan over the two's-complement representation of `v` as
an `i64`. -/
def serializeNegativeInt (v : Int) : List Nat :=
  if v > -7 then [(0x40 + v).toNat]
  else negLoop (leBytes 8 (2 ^ 64 + v).toNat) 7

/-- `serialize_i64` (src/ser.rs lines 108-115): non-negative values go
through the unsigned path, negative ones through the negative path. -/
def serializeI64 (v : Int) : List Nat :=
  if 0 ≤ v then serializeUnsignedInt v.toNat else serializeNegativeInt v

/-- Total payload size of a list of child encodings. -/
def itemSizeOf (items : List (List Nat)) : Nat := (items.map List.length).sum

/-- `needed_size` of the width search in `end_array` / `end_map`
(src/ser.rs lines 591, 409): header, byte length, count, payload, index. -/
def neededSize (w n itemSize : Nat) : Nat := 1 + w + w + itemSize + n * w

/-- Running offsets of the payload entries, starting at `start`
(the `offset` accumulation of src/ser.rs lines 619-626 and 450-463). -/
def offsetsFrom (start : Nat) : List (List Nat) → List Nat
  | [] => []
  | e :: rest => start :: offsetsFrom (start + e.length) rest

/-- Emission of one indexed-array variant (src/ser.rs lines 595-650): tag,
`w`-byte total size, `w`-byte count, payload in order, then the offsets in
payload order as `w`-byte little-endian values. -/
def emitIndexedArray (tag w : Nat) (items : List (List Nat)) : List Nat :=
  [tag] ++ leBytes w (neededSize w items.length (itemSizeOf items)) ++
    leBytes w items.length ++ items.flatten ++
    ((offsetsFrom (1 + 2 * w) items).map (leBytes w)).flatten

/-- `ArraySerializer::end_array` (src/ser.rs lines 548-658) applied to the
accumulated child encodings.  Equal-length children use tags 0x02..=0x05
with only a byte-size field; unequal children use the first width of
1, 2, 4, 8 whose `needed_size` fits (tags 0x06..=0x09, the count emitted at
the head right after the byte length in every case); if no width fits, the
loop emits nothing. -/
def endArray (items : List (List Nat)) : List Nat :=
  match items with
  | [] => [0x01]
  | first :: _ =>
    if items.all fun v => decide (v.length = first.length) then
      let byteSize := items.length * first.length
      if byteSize < 2 ^ 8 - 2 then [0x02] ++ leBytes 1 (byteSize + 2) ++ items.flatten
      else if byteSize < 2 ^ 16 - 3 then [0x03] ++ leBytes 2 (byteSize + 3) ++ items.flatten
      else if byteSize < 2 ^ 32 - 4 then [0x04] ++ leBytes 4 (byteSize + 4) ++ items.flatten
      else [0x05] ++ leBytes 8 (byteSize + 5) ++ items.flatten
    else
      let n := items.length
      let isize := itemSizeOf items
      if neededSize 1 n isize < 2 ^ 8 then emitIndexedArray 0x06 1 items
      else if neededSize 2 n isize < 2 ^ 16 then emitIndexedArray 0x07 2 items
      else if neededSize 4 n isize < 2 ^ 32 then emitIndexedArray 0x08 4 items
      else if neededSize 8 n isize < 2 ^ 64 then emitIndexedArray 0x09 8 items
      else []

/-- Strict lexicographic comparison of byte vectors, as in Rust's
`Ord for Vec<u8>` (a strict prefix is smaller). -/
def vecLt : List Nat → List Nat → Bool
  | _, [] => false
  | [], _ :: _ => true
  | x :: xs, y :: ys => if x < y then true else if y < x then false else vecLt xs ys

/-- Non-strict ordering of the `(index, encoded key)` pairs compared by the
`sort_by_key(|(_i, v)| v.clone())` call of `end_map`
(src/ser.rs lines 437-448): the full encoded key bytes, tag included. -/
def keyPairLe (a b : Nat × List Nat) : Bool := !vecLt b.2 a.2

/-- Stable insertion of a pair into an already sorted list (placed before
the first strictly greater key, i.e. after all equal keys). -/
def insertKeyPair (x : Nat × List Nat) :
    List (Nat × List Nat) → List (Nat × List Nat)
  | [] => [x]
  | y :: ys => if keyPairLe x y then x :: y :: ys else y :: insertKeyPair x ys

/-- Stable insertion sort of `(index, encoded key)` pairs, modelling Rust's
stable `sort_by_key`. -/
def sortKeyPairs : List (Nat × List Nat) → List (Nat × List Nat)
  | [] => []
  | x :: xs => insertKeyPair x (sortKeyPairs xs)

/-- The `sorted_keys` vector of `end_map` (src/ser.rs lines 437-448):
enumerated keys sorted by their encoded bytes. -/
def sortedKeyOrder (keys : List (List Nat)) : List (Nat × List Nat) :=
  sortKeyPairs keys.enum

/-- The `sorted_offset_idx` vector of `end_map`: the payload positions in
index-table order. -/
def sortedOffsetIdx (keys : List (List Nat)) : List Nat :=
  (sortedKeyOrder keys).map Prod.fst

/-- Concatenated encoded bytes of one key/value entry. -/
def entryBytes (p : List Nat × List Nat) : List Nat := p.1 ++ p.2

/-- Emission of one object variant (src/ser.rs lines 412-489): tag, `w`-byte
total size, `w`-byte count, the entries in insertion order, then the offsets
in sorted-key order as `w`-byte little-endian values. -/
def emitMap (tag w : Nat) (pairs : List (List Nat × List Nat)) : List Nat :=
  let n := pairs.length
  let isize := itemSizeOf (pairs.map entryBytes)
  let offsets := offsetsFrom (1 + 2 * w) (pairs.map entryBytes)
  [tag] ++ leBytes w (neededSize w n isize) ++ leBytes w n ++
    (pairs.map entryBytes).flatten ++
    ((sortedOffsetIdx (pairs.map Prod.fst)).map
      fun i => leBytes w (offsets.getD i 0)).flatten

/-- `MapSerializer::end_map` (src/ser.rs lines 382-495) applied to the
accumulated `(encoded key, encoded value)` pairs: empty objects emit 0x0a,
otherwise the first width of 1, 2, 4, 8 whose `needed_size` fits selects
the tag 0x0b..=0x0e. -/
def endMap (pairs : List (List Nat × List Nat)) : List Nat :=
  match pairs with
  | [] => [0x0a]
  | _ :: _ =>
    let n := pairs.length
    let isize := itemSizeOf (pairs.map entryBytes)
    if neededSize 1 n isize < 2 ^ 8 then emitMap 0x0b 1 pairs
    else if neededSize 2 n isize < 2 ^ 16 then emitMap 0x0c 2 pairs
    else if neededSize 4 n isize < 2 ^ 32 then emitMap 0x0d 4 pairs
    else if neededSize 8 n isize < 2 ^ 64 then emitMap 0x0e 8 pairs
    else []

/-! ## General lemmas -/

theorem bind_ok_eq {α β : Type} (a : α) (f : α → Except Failure β) :
    (Except.ok a >>= f) = f a := rfl

theorem bind_error_eq {α β : Type} (e : Failure) (f : α → Except Failure β) :
    ((Except.error e : Except Failure α) >>= f) = .error e := rfl

theorem decodeElems_length (d : List Nat → Except Failure (Value × List Nat)) :
    ∀ (n : Nat) (input rest : List Nat) (vs : List Value),
      decodeElems d n input = .ok (vs, rest) → vs.length = n := by
  intro n
  induction n with
  | zero =>
    intro input rest vs h
    simp only [decodeElems] at h
    cases h
    rfl
  | succ m ih =>
    intro input rest vs h
    simp only [decodeElems] at h
    cases hd : d input with
    | error e => rw [hd, bind_error_eq] at h; cases h
    | ok p =>
      obtain ⟨v, r⟩ := p
      rw [hd, bind_ok_eq] at h
      cases hrec : decodeElems d m r with
      | error e => rw [hrec, bind_error_eq] at h; cases h
      | ok q =>
        obtain ⟨vs2, r2⟩ := q
        rw [hrec, bind_ok_eq] at h
        cases h
        simp [ih r r2 vs2 hrec]

/-! ## Claim theorems -/

/-- C1: round-trip of scalars fails on the code.  The serializer encodes the
i64 value −8388608 as a three-byte signed integer `[0x22, 0x00, 0x00, 0x80]`,
but the deserializer rejects every three-byte signed integer with
`Error::Message("Invalid byte length for signed integer: 3 (valid: 1, 2, 4, 8)")`,
so `from_bytes(to_bytes(-8388608))` is an error rather than the original
value. -/
theorem c1_roundtrip_breaks :
    serializeI64 (-8388608) = [0x22, 0x00, 0x00, 0x80] ∧
    fromBytes [0x22, 0x00, 0x00, 0x80] =
      .error (.err (.message (invalidSignedLenMsg 3))) ∧
    ∀ v : Value, fromBytes [0x22, 0x00, 0x00, 0x80] ≠ .ok v := by
  refine ⟨rfl, rfl, fun v h => ?_⟩
  have h2 : fromBytes [0x22, 0x00, 0x00, 0x80] =
      .error (.err (.message (invalidSignedLenMsg 3))) := rfl
  exact Except.noConfusion (h2.symm.trans h)

/-- C2: signed-integer decoding does not cover every width.  Requesting an
i64, the widths 1, 2, 4, 8 (tags 0x21, 0x23 shown) decode to the
sign-extended two's-complement value, but the widths 3, 5, 6, 7 (tags
0x22, 0x24, 0x25, 0x26) are rejected with `Error::Message(..)` instead of
decoding. -/
theorem c2_signed_width_gap :
    parseSigned .i64 [0x22, 0x00, 0x00, 0x80] =
      .error (.err (.message (invalidSignedLenMsg 3))) ∧
    parseSigned .i64 [0x24, 0x00, 0x00, 0x00, 0x00, 0x80] =
      .error (.err (.message (invalidSignedLenMsg 5))) ∧
    parseSigned .i64 [0x25, 0x00, 0x00, 0x00, 0x00, 0x00, 0x80] =
      .error (.err (.message (invalidSignedLenMsg 6))) ∧
    parseSigned .i64 [0x26, 0x00, 0x00, 0x00, 0x00, 0x00, 0x00, 0x80] =
      .error (.err (.message (invalidSignedLenMsg 7))) ∧
    parseSigned .i64 [0x20, 0x80] = .ok (-128, []) ∧
    parseSigned .i64 [0x21, 0x00, 0x80] = .ok (-32768, []) ∧
    parseSigned .i64 [0x23, 0x00, 0x00, 0x00, 0x80] = .ok (-2147483648, []) ∧
    parseSigned .i64 [0x27, 0x00, 0x00, 0x00, 0x00, 0x00, 0x00, 0x00, 0x80] =
      .ok (-9223372036854775808, []) := by
  exact ⟨rfl, rfl, rfl, rfl, rfl, rfl, rfl, rfl⟩

/-- C3: the compact-array item count does not come from the reverse varint.
On the compact array `[0x13, 0x06, 0x31, 0x32, 0x33, 0x03]` (the repo's own
test vector for `[1, 2, 3]`), the reverse varint read from the tail of the
container is 3, but the decoder sets the item count to the length of its
fixed 8-byte buffer (always 8) and therefore fails with `Eof` instead of
producing the three elements. -/
theorem c3_compact_count_bug :
    readReverseVarint [0x31, 0x32, 0x33, 0x03] = .ok (3, 1) ∧
    fromBytes [0x13, 0x06, 0x31, 0x32, 0x33, 0x03] = .error (.err .eof) ∧
    ∀ v : Value, fromBytes [0x13, 0x06, 0x31, 0x32, 0x33, 0x03] ≠ .ok v := by
  refine ⟨rfl, rfl, fun v h => ?_⟩
  have h2 : fromBytes [0x13, 0x06, 0x31, 0x32, 0x33, 0x03] =
      .error (.err .eof) := rfl
  exact Except.noConfusion (h2.symm.trans h)

/-- C7: `from_bytes` returns `Ok` exactly when the first value consumes the
whole input, and `TrailingBytes(n)` with `n` the exact number of surplus
bytes otherwise. -/
theorem c7_trailing_bytes (s : List Nat) (v : Value) (rest : List Nat)
    (h : firstFromBytes s = .ok (v, rest)) :
    (rest = [] → fromBytes s = .ok v) ∧
    (rest ≠ [] → fromBytes s = .error (.err (.trailingBytes rest.length))) := by
  constructor <;> intro hr <;> simp [fromBytes, h, hr]

/-- Witness for C7 at the concrete input `[0x1a, 0x00]` (a boolean followed
by one surplus byte): the result is `TrailingBytes(1)`. -/
theorem c7_trailing_bytes_witness :
    fromBytes [0x1a, 0x00] = .error (.err (.trailingBytes 1)) := by
  have h := c7_trailing_bytes [0x1a, 0x00] (.bool true) [0x00] rfl
  exact h.2 (by decide)

theorem fromLE_lt_of_bytes :
    ∀ l : List Nat, (∀ b ∈ l, b < 256) → fromLE l < 2 ^ (8 * l.length) := by
  intro l
  induction l with
  | nil => intro _; simp [fromLE]
  | cons b rest ih =>
    intro h
    have hb : b < 256 := h b (List.mem_cons_self b rest)
    have hr : fromLE rest < 2 ^ (8 * rest.length) :=
      ih fun x hx => h x (List.mem_cons_of_mem _ hx)
    simp only [fromLE, List.length_cons]
    have hexp : 8 * (rest.length + 1) = 8 * rest.length + 8 := by ring
    rw [hexp, pow_add]
    have h2 : 256 * (fromLE rest + 1) ≤ 256 * 2 ^ (8 * rest.length) :=
      Nat.mul_le_mul_left _ hr
    have h3 : (2 : Nat) ^ 8 = 256 := by norm_num
    rw [h3]
    omega

/-- C10: when a signed type is requested but the tag is an unsigned-integer
tag `0x28 + k` (given at least `k + 1` payload bytes) or a small-unsigned
tag `0x30 + d`, the decoder takes the `parse_unsigned::<u64>` fallback: it
decodes the zero-extended value and returns it when it fits the requested
signed type, and `NumberTooLarge` otherwise (small values 0..=9 always
fit). -/
theorem c10_signed_accepts_unsigned (ty : SInt) (k : Nat) (rest : List Nat)
    (hk : k < 8) (hlen : k + 1 ≤ rest.length)
    (hbytes : ∀ b ∈ rest.take (k + 1), b < 256) :
    parseSigned ty ((0x28 + k) :: rest) =
      (if (fromLE (rest.take (k + 1)) : Int) ≤ sintMax ty
       then .ok ((fromLE (rest.take (k + 1)) : Int), rest.drop (k + 1))
       else .error (.err .numberTooLarge)) ∧
    (∀ dig, dig ≤ 9 →
      parseSigned ty ((0x30 + dig) :: rest) = .ok ((dig : Int), rest)) := by
  have hfit : fromLE (rest.take (k + 1)) ≤ 2 ^ 64 - 1 := by
    have h1 : fromLE (rest.take (k + 1)) < 2 ^ (8 * (rest.take (k + 1)).length) :=
      fromLE_lt_of_bytes _ hbytes
    have h2 : (rest.take (k + 1)).length = k + 1 := by
      rw [List.length_take]; omega
    rw [h2] at h1
    have h3 : (2 : Nat) ^ (8 * (k + 1)) ≤ 2 ^ 64 :=
      Nat.pow_le_pow_right (by norm_num) (by omega)
    omega
  constructor
  · have hpu : parseUnsigned (2 ^ 64 - 1) ((0x28 + k) :: rest) =
        .ok (fromLE (rest.take (k + 1)), rest.drop (k + 1)) := by
      simp only [parseUnsigned]
      rw [if_pos (by omega : 0x28 ≤ 0x28 + k ∧ 0x28 + k ≤ 0x2f)]
      rw [show 0x28 + k - 0x27 = k + 1 from by omega]
      rw [if_pos hlen, if_pos hfit]
    simp only [parseSigned]
    rw [if_neg (by omega : ¬(0x3a ≤ 0x28 + k ∧ 0x28 + k ≤ 0x3f))]
    rw [if_neg (by omega : ¬(0x20 ≤ 0x28 + k ∧ 0x28 + k ≤ 0x27))]
    rw [hpu]
  · intro dig hdig
    have hpu : parseUnsigned (2 ^ 64 - 1) ((0x30 + dig) :: rest) =
        .ok (dig, rest) := by
      simp only [parseUnsigned]
      rw [if_neg (by omega : ¬(0x28 ≤ 0x30 + dig ∧ 0x30 + dig ≤ 0x2f))]
      rw [if_pos (by omega : 0x30 ≤ 0x30 + dig ∧ 0x30 + dig ≤ 0x39)]
      rw [show 0x30 + dig - 0x30 = dig from by omega]
      rw [if_pos (by omega : dig ≤ 2 ^ 64 - 1)]
    simp only [parseSigned]
    rw [if_neg (by omega : ¬(0x3a ≤ 0x30 + dig ∧ 0x30 + dig ≤ 0x3f))]
    rw [if_neg (by omega : ¬(0x20 ≤ 0x30 + dig ∧ 0x30 + dig ≤ 0x27))]
    rw [hpu]
    have hle : (dig : Int) ≤ sintMax ty := by
      cases ty <;> simp only [sintMax, sintBits] <;> omega
    exact if_pos hle

/-- Witness for C10: requesting an i8 from `[0x28, 0xff]` (value 255, too
large for i8) yields `NumberTooLarge`, while the small-unsigned tag 0x35
decodes to 5. -/
theorem c10_signed_accepts_unsigned_witness :
    parseSigned .i8 [0x28, 0xff] = .error (.err .numberTooLarge) ∧
    parseSigned .i8 [0x35, 0xff] = .ok (5, [0xff]) := by
  have h := c10_signed_accepts_unsigned .i8 0 [0xff] (by decide) (by decide)
    (by decide)
  constructor
  · have h1 := h.1
    rw [if_neg (by decide)] at h1
    exact h1
  · exact h.2 5 (by decide)

/-- C6 (amended): for the equal-length array variants, a successful decode
yields `1 + ((L − 1 − W) / S − 1)` elements — i.e. exactly `(L − 1 − W) / S`
elements whenever that truncating quotient is at least 1.  Padding is not
subtracted from the numerator and no divisibility check is made. -/
theorem c6_count_formula (d : List Nat → Except Failure (Value × List Nat))
    (w len : Nat) (afterTag r1 r2 r3 rout : List Nat) (v : Value)
    (vs : List Value)
    (hlen : consumeUInt w afterTag = .ok (len, r1))
    (hpad : skipPadding r1 = .ok r2)
    (hfirst : d r2 = .ok (v, r3))
    (hpos : 0 < (len - 1 - w) / (r2.length - r3.length))
    (hrun : decodeEqArrayWith d w afterTag = .ok (vs, rout)) :
    vs.length = (len - 1 - w) / (r2.length - r3.length) := by
  have hsz : ¬(r2.length - r3.length = 0) := by
    intro h0
    rw [h0, Nat.div_zero] at hpos
    exact Nat.lt_irrefl 0 hpos
  unfold decodeEqArrayWith at hrun
  rw [hlen, bind_ok_eq] at hrun
  simp only at hrun
  rw [hpad, bind_ok_eq] at hrun
  rw [hfirst, bind_ok_eq] at hrun
  simp only at hrun
  rw [if_neg hsz] at hrun
  cases hrec : decodeElems d ((len - 1 - w) / (r2.length - r3.length) - 1) r3 with
  | error e => rw [hrec, bind_error_eq] at hrun; cases hrun
  | ok p =>
    obtain ⟨vs2, r4⟩ := p
    rw [hrec, bind_ok_eq] at hrun
    cases hrun
    have hl := decodeElems_length d _ _ _ _ hrec
    simp only [List.length_cons, hl]
    omega

/-- Witness for C6 at the concrete input `[0x02, 0x05, 0x31, 0x32, 0x33]`
(the repo's `[1, 2, 3]` golden vector): three elements, matching
`(5 − 1 − 1) / 1`. -/
theorem c6_count_formula_witness :
    ([Value.uint 1, Value.uint 2, Value.uint 3] : List Value).length =
      (5 - 1 - 1) / (([0x31, 0x32, 0x33] : List Nat).length -
        ([0x32, 0x33] : List Nat).length) :=
  c6_count_formula (decodeAny 4) 1 5 [0x05, 0x31, 0x32, 0x33]
    [0x31, 0x32, 0x33] [0x31, 0x32, 0x33] [0x32, 0x33] [] (.uint 1)
    [.uint 1, .uint 2, .uint 3] rfl rfl rfl (by decide) rfl

/-- C6 (counterexample to the claim as stated): the input
`[0x02, 0x05, 0x00, 0x31, 0x32]` declares total length 5, has width 1 and
one byte of zero padding, and holds two one-byte elements.  The claim's
formula `(L − 1 − W − padding) / S = 2` predicts a successful decode of
`[1, 2]`; the code does not subtract the padding, computes
`(5 − 1 − 1) / 1 = 3` elements, runs off the end of the input, and fails
with `Eof`. -/
theorem c6_counterexample :
    fromBytes [0x02, 0x05, 0x00, 0x31, 0x32] = .error (.err .eof) ∧
    (5 - 1 - 1 - 1) / 1 = 2 ∧
    ∀ v : Value, fromBytes [0x02, 0x05, 0x00, 0x31, 0x32] ≠ .ok v := by
  refine ⟨rfl, rfl, fun v h => ?_⟩
  have h2 : fromBytes [0x02, 0x05, 0x00, 0x31, 0x32] =
      .error (.err .eof) := rfl
  exact Except.noConfusion (h2.symm.trans h)

/-- C9: deserializing an empty byte slice returns `Eof` for every requested
kind — boolean, double, signed integer (every requested width), unsigned
integer, string, null, array, object, and `deserialize_any` — never a panic
and never an `ExpectedX` error. -/
theorem c9_empty_input_eof :
    parseBool [] = .error (.err .eof) ∧
    parseDouble [] = .error (.err .eof) ∧
    (∀ ty, parseSigned ty [] = .error (.err .eof)) ∧
    (∀ m, parseUnsigned m [] = .error (.err .eof)) ∧
    parseString [] = .error (.err .eof) ∧
    parseNull [] = .error (.err .eof) ∧
    (∀ d, decodeSeqWith d [] = .error (.err .eof)) ∧
    (∀ d, decodeMapWith d [] = .error (.err .eof)) ∧
    (∀ f, decodeAny (f + 1) [] = .error (.err .eof)) ∧
    fromBytes [] = .error (.err .eof) := by
  exact ⟨rfl, rfl, fun _ => rfl, fun _ => rfl, rfl, rfl,
    fun _ => rfl, fun _ => rfl, fun _ => rfl, rfl⟩

theorem leBytes_length : ∀ n v : Nat, (leBytes n v).length = n := by
  intro n
  induction n with
  | zero => intro v; rfl
  | succ m ih => intro v; simp [leBytes, ih]

theorem leBytes_take : ∀ n m v : Nat, (leBytes n v).take m = leBytes (min m n) v := by
  intro n
  induction n with
  | zero => intro m v; simp [leBytes]
  | succ j ih =>
    intro m v
    cases m with
    | zero => simp [leBytes]
    | succ i =>
      simp only [leBytes, List.take_succ_cons]
      rw [ih i (v / 256)]
      have : min (i + 1) (j + 1) = min i j + 1 := by omega
      rw [this, leBytes]

theorem topByteScan_spec : ∀ i v : Nat, v ≠ 0 → v < 2 ^ (8 * (i + 1)) →
    ∃ k, topByteScan v i = some k ∧ 2 ^ (8 * k) ≤ v ∧ v < 2 ^ (8 * (k + 1)) ∧
      k ≤ i := by
  intro i
  induction i with
  | zero =>
    intro v hv hlt
    have h8 : (8 : Nat) * (0 + 1) = 8 := by norm_num
    rw [h8] at hlt
    refine ⟨0, ?_, by simpa using Nat.one_le_iff_ne_zero.mpr hv, by simpa using hlt, le_refl 0⟩
    simp only [topByteScan]
    rw [if_pos]
    rw [Nat.mod_eq_of_lt (by simpa using hlt)]
    exact hv
  | succ j ih =>
    intro v hv hlt
    by_cases hbyte : v / 2 ^ (8 * (j + 1)) % 256 ≠ 0
    · refine ⟨j + 1, ?_, ?_, hlt, le_refl _⟩
      · simp only [topByteScan]
        rw [if_pos hbyte]
      · by_contra hcon
        push_neg at hcon
        rw [Nat.div_eq_of_lt hcon] at hbyte
        exact hbyte rfl
    · push_neg at hbyte
      have hqlt : v / 2 ^ (8 * (j + 1)) < 256 := by
        apply Nat.div_lt_of_lt_mul
        have : (2 : Nat) ^ (8 * (j + 1 + 1)) = 2 ^ (8 * (j + 1)) * 256 := by
          rw [show 8 * (j + 1 + 1) = 8 * (j + 1) + 8 from by ring, pow_add]
          norm_num
        rw [← this]
        exact hlt
      rw [Nat.mod_eq_of_lt hqlt] at hbyte
      have hvlt : v < 2 ^ (8 * (j + 1)) :=
        (Nat.div_eq_zero_iff (Nat.pos_pow_of_pos _ (by norm_num))).mp hbyte
      obtain ⟨k, hscan, h1, h2, h3⟩ := ih v hv hvlt
      refine ⟨k, ?_, h1, h2, Nat.le_succ_of_le h3⟩
      simp only [topByteScan]
      rw [if_neg (by simp [hbyte])]
      exact hscan

/-- C8: minimum-width unsigned encoding.  Every value 0..=9 becomes the
single byte `0x30 + v` (in particular 0 encodes as 0x30); every value at
least 10 becomes tag `0x28 + k` followed by the `k + 1` little-endian bytes
of `v`, where `k` is characterised by `2^(8k) ≤ v < 2^(8(k+1))` — the
smallest sufficient byte count. -/
theorem c8_min_width_unsigned (v : Nat) (hv : v < 2 ^ 64) :
    (v ≤ 9 → serializeUnsignedInt v = [0x30 + v]) ∧
    (10 ≤ v → ∃ k, 2 ^ (8 * k) ≤ v ∧ v < 2 ^ (8 * (k + 1)) ∧
      serializeUnsignedInt v = (0x28 + k) :: leBytes (k + 1) v) := by
  constructor
  · intro h9
    unfold serializeUnsignedInt
    rw [if_pos (by omega)]
  · intro h10
    have hvne : v ≠ 0 := by omega
    obtain ⟨k, hscan, hlo, hhi, hk⟩ := topByteScan_spec 7 v hvne (by simpa using hv)
    refine ⟨k, hlo, hhi, ?_⟩
    unfold serializeUnsignedInt
    rw [if_neg (by omega), hscan]
    show (0x28 + k) :: (leBytes 8 v).take (k + 1) = (0x28 + k) :: leBytes (k + 1) v
    rw [leBytes_take]
    rw [Nat.min_eq_left (by omega)]

/-- Witness for C8 at the concrete inputs 0, 9 (single-byte encodings) and
300 (two little-endian bytes behind tag 0x29). -/
theorem c8_min_width_unsigned_witness :
    serializeUnsignedInt 0 = [0x30] ∧
    serializeUnsignedInt 9 = [0x39] ∧
    ∃ k, 2 ^ (8 * k) ≤ 300 ∧ 300 < 2 ^ (8 * (k + 1)) ∧
      serializeUnsignedInt 300 = (0x28 + k) :: leBytes (k + 1) 300 := by
  refine ⟨?_, ?_, (c8_min_width_unsigned 300 (by norm_num)).2 (by norm_num)⟩
  · exact (c8_min_width_unsigned 0 (by norm_num)).1 (by norm_num)
  · exact (c8_min_width_unsigned 9 (by norm_num)).1 (by norm_num)

theorem vecLt_asymm : ∀ x y : List Nat, vecLt x y = true → vecLt y x = false := by
  intro x
  induction x with
  | nil =>
    intro y h
    cases y with
    | nil => cases h
    | cons b bs => rfl
  | cons a as2 ih =>
    intro y h
    cases y with
    | nil => cases h
    | cons b bs =>
      simp only [vecLt] at h ⊢
      by_cases h1 : a < b
      · rw [if_neg (by omega : ¬b < a), if_pos h1]
      · rw [if_neg h1] at h
        by_cases h2 : b < a
        · rw [if_pos h2] at h; cases h
        · rw [if_neg h2] at h
          rw [if_neg h2, if_neg h1]
          exact ih bs h

theorem vecLt_trans : ∀ x y z : List Nat,
    vecLt x y = true → vecLt y z = true → vecLt x z = true := by
  intro x
  induction x with
  | nil =>
    intro y z hxy hyz
    cases y with
    | nil => cases hxy
    | cons b bs =>
      cases z with
      | nil => cases hyz
      | cons c cs => rfl
  | cons a as2 ih =>
    intro y z hxy hyz
    cases y with
    | nil => cases hxy
    | cons b bs =>
      cases z with
      | nil => cases hyz
      | cons c cs =>
        simp only [vecLt] at hxy hyz ⊢
        by_cases hab : a < b
        · by_cases hbc : b < c
          · rw [if_pos (by omega : a < c)]
          · rw [if_neg hbc] at hyz
            by_cases hcb : c < b
            · rw [if_pos hcb] at hyz; cases hyz
            · rw [if_pos (by omega : a < c)]
        · rw [if_neg hab] at hxy
          by_cases hba : b < a
          · rw [if_pos hba] at hxy; cases hxy
          · rw [if_neg hba] at hxy
            by_cases hbc : b < c
            · rw [if_pos (by omega : a < c)]
            · rw [if_neg hbc] at hyz
              by_cases hcb : c < b
              · rw [if_pos hcb] at hyz; cases hyz
              · rw [if_neg hcb] at hyz
                rw [if_neg (by omega : ¬a < c), if_neg (by omega : ¬c < a)]
                exact ih bs cs hxy hyz

theorem vecLt_connex : ∀ x y : List Nat,
    vecLt x y = false → vecLt y x = false → x = y := by
  intro x
  induction x with
  | nil =>
    intro y h1 _
    cases y with
    | nil => rfl
    | cons b bs => cases h1
  | cons a as2 ih =>
    intro y h1 h2
    cases y with
    | nil => cases h2
    | cons b bs =>
      simp only [vecLt] at h1 h2
      by_cases hab : a < b
      · rw [if_pos hab] at h1; cases h1
      · by_cases hba : b < a
        · rw [if_pos hba] at h2; cases h2
        · rw [if_neg hab, if_neg hba] at h1
          rw [if_neg hba, if_neg hab] at h2
          have hval : a = b := by omega
          rw [hval, ih bs h1 h2]

theorem keyPairLe_of_not (x y : Nat × List Nat) (h : keyPairLe x y = false) :
    keyPairLe y x = true := by
  unfold keyPairLe at h ⊢
  have hlt : vecLt y.2 x.2 = true := by
    revert h
    cases vecLt y.2 x.2 <;> simp
  rw [vecLt_asymm _ _ hlt]
  rfl

theorem keyPairLe_trans (x y z : Nat × List Nat) (h1 : keyPairLe x y = true)
    (h2 : keyPairLe y z = true) : keyPairLe x z = true := by
  unfold keyPairLe at h1 h2 ⊢
  have hyx : vecLt y.2 x.2 = false := by
    revert h1
    cases vecLt y.2 x.2 <;> simp
  have hzy : vecLt z.2 y.2 = false := by
    revert h2
    cases vecLt z.2 y.2 <;> simp
  have hzx : vecLt z.2 x.2 = false := by
    cases hcase : vecLt z.2 x.2 with
    | false => rfl
    | true =>
      cases hyz : vecLt y.2 z.2 with
      | true =>
        have := vecLt_trans _ _ _ hyz hcase
        rw [this] at hyx
        cases hyx
      | false =>
        have heq : y.2 = z.2 := vecLt_connex _ _ hyz hzy
        rw [← heq] at hcase
        rw [hcase] at hyx
        cases hyx
  rw [hzx]
  rfl

theorem mem_insertKeyPair (x z : Nat × List Nat) :
    ∀ l, z ∈ insertKeyPair x l → z = x ∨ z ∈ l := by
  intro l
  induction l with
  | nil =>
    intro h
    simp only [insertKeyPair] at h
    exact Or.inl (List.mem_singleton.mp h)
  | cons y ys ih =>
    intro h
    simp only [insertKeyPair] at h
    by_cases hc : keyPairLe x y = true
    · rw [if_pos hc] at h
      rcases List.mem_cons.mp h with h | h
      · exact Or.inl h
      · exact Or.inr h
    · rw [if_neg hc] at h
      rcases List.mem_cons.mp h with h | h
      · exact Or.inr (List.mem_cons.mpr (Or.inl h))
      · rcases ih h with h | h
        · exact Or.inl h
        · exact Or.inr (List.mem_cons.mpr (Or.inr h))

theorem insertKeyPair_sorted (x : Nat × List Nat) :
    ∀ l, List.Pairwise (fun a b => keyPairLe a b = true) l →
      List.Pairwise (fun a b => keyPairLe a b = true) (insertKeyPair x l) := by
  intro l
  induction l with
  | nil =>
    intro _
    simp [insertKeyPair]
  | cons y ys ih =>
    intro hp
    rcases List.pairwise_cons.mp hp with ⟨hy, hys⟩
    simp only [insertKeyPair]
    by_cases hc : keyPairLe x y = true
    · rw [if_pos hc]
      refine List.pairwise_cons.mpr ⟨?_, hp⟩
      intro z hz
      rcases List.mem_cons.mp hz with rfl | hz
      · exact hc
      · exact keyPairLe_trans x y z hc (hy z hz)
    · rw [if_neg hc]
      refine List.pairwise_cons.mpr ⟨?_, ih hys⟩
      intro z hz
      rcases mem_insertKeyPair x z _ hz with hzx | hz
      · rw [hzx]
        exact keyPairLe_of_not x y (eq_false_of_ne_true hc)
      · exact hy z hz

theorem sortKeyPairs_sorted :
    ∀ l, List.Pairwise (fun a b => keyPairLe a b = true) (sortKeyPairs l) := by
  intro l
  induction l with
  | nil => simp [sortKeyPairs]
  | cons x xs ih => exact insertKeyPair_sorted x _ ih

/-- C5 (amended): the object index table built by `end_map` is ordered by
lexicographic comparison of the full *encoded* key bytes — tag byte
included — not of the raw string contents: the keys read off in index-table
order (`sortedKeyOrder`, whose first components `sortedOffsetIdx` select the
offsets written to the index) are pairwise non-decreasing under the
`Vec<u8>` lexicographic order on their encodings. -/
theorem c5_index_sorted_encoded (keys : List (List Nat)) :
    List.Pairwise (fun a b : List Nat => vecLt b a = false)
      ((sortedKeyOrder keys).map Prod.snd) := by
  rw [List.pairwise_map]
  unfold sortedKeyOrder
  refine (sortKeyPairs_sorted keys.enum).imp ?_
  intro a b hab
  unfold keyPairLe at hab
  revert hab
  cases vecLt b.2 a.2 <;> simp

/-- C5 (counterexample to the claim as stated): serializing the two-entry
object with keys "b" (encoded `[0x41, 0x62]`, payload offset 3) and "aa"
(encoded `[0x42, 0x61, 0x61]`, payload offset 6) produces the index table
`[0x03, 0x06]` — key "b" before key "aa" — because the sort compares the
encoded bytes, whose first byte is the length-carrying tag.  Lexicographic
comparison of the string contents has "aa" < "b" (third conjunct), so the
claim predicts the index `[0x06, 0x03]`: the table is *not* ordered by key
contents independent of key length. -/
theorem c5_counterexample :
    endMap [([0x41, 0x62], [0x31]), ([0x42, 0x61, 0x61], [0x32])] =
      [0x0b, 0x0c, 0x02, 0x41, 0x62, 0x31, 0x42, 0x61, 0x61, 0x32,
        0x03, 0x06] ∧
    sortedKeyOrder [[0x41, 0x62], [0x42, 0x61, 0x61]] =
      [(0, [0x41, 0x62]), (1, [0x42, 0x61, 0x61])] ∧
    vecLt [0x61, 0x61] [0x62] = true :=
  ⟨rfl, rfl, rfl⟩

/-- An array of one null followed by 715827883 copies of the string "a":
its children have unequal encoded lengths 1 and 2, and its payload is large
enough that the width search of `end_array` reaches the 8-byte width, so it
is emitted with tag 0x09. -/
def c4Items : List (List Nat) := [0x18] :: List.replicate 715827883 [0x41, 0x61]

/-- The repo's decoder golden vector for `[1, 2, 3]` with tag 0x09
(src/de.rs test `array_123_examples`): the item count 3 occupies the final
8 bytes of the 44-byte container. -/
def golden09 : List Nat :=
  [0x09, 0x2c, 0x00, 0x00, 0x00, 0x00, 0x00, 0x00, 0x00, 0x31, 0x32, 0x33,
   0x09, 0x00, 0x00, 0x00, 0x00, 0x00, 0x00, 0x00,
   0x0a, 0x00, 0x00, 0x00, 0x00, 0x00, 0x00, 0x00,
   0x0b, 0x00, 0x00, 0x00, 0x00, 0x00, 0x00, 0x00,
   0x03, 0x00, 0x00, 0x00, 0x00, 0x00, 0x00, 0x00]

theorem take_prefix17 (a : Nat) (bs cs ps qs : List Nat) (hb : bs.length = 8)
    (hc : cs.length = 8) :
    ([a] ++ bs ++ cs ++ ps ++ qs).take 17 = [a] ++ bs ++ cs := by
  rw [List.append_assoc ([a] ++ bs ++ cs) ps qs]
  exact List.take_left' (by simp [hb, hc])

theorem c4_general (N : Nat) (hN : 0 < N)
    (h1 : 2 ^ 8 ≤ neededSize 1 (N + 1) (1 + N * 2))
    (h2 : 2 ^ 16 ≤ neededSize 2 (N + 1) (1 + N * 2))
    (h4 : 2 ^ 32 ≤ neededSize 4 (N + 1) (1 + N * 2))
    (h8 : neededSize 8 (N + 1) (1 + N * 2) < 2 ^ 64) :
    (endArray ([0x18] :: List.replicate N [0x41, 0x61])).take 17 =
      [0x09] ++ leBytes 8 (neededSize 8 (N + 1) (1 + N * 2)) ++
        leBytes 8 (N + 1) := by
  have hlen : ([0x18] :: List.replicate N [0x41, 0x61] : List (List Nat)).length
      = N + 1 := by
    rw [List.length_cons, List.length_replicate]
  have hsize : itemSizeOf ([0x18] :: List.replicate N [0x41, 0x61])
      = 1 + N * 2 := by
    unfold itemSizeOf
    rw [List.map_cons, List.map_replicate, List.sum_cons, List.sum_const_nat]
    simp [Nat.mul_comm]
  have hall : (([0x18] :: List.replicate N [0x41, 0x61] : List (List Nat)).all
      fun v => decide (v.length = ([0x18] : List Nat).length)) = false := by
    rw [Bool.eq_false_iff]
    intro htrue
    have hmem : ([0x41, 0x61] : List Nat) ∈
        [0x18] :: List.replicate N [0x41, 0x61] :=
      List.mem_cons_of_mem _ (List.mem_replicate.mpr ⟨by omega, rfl⟩)
    have hx := List.all_eq_true.mp htrue _ hmem
    exact absurd (of_decide_eq_true hx) (by decide)
  simp only [endArray]
  rw [hall]
  rw [if_neg (show ¬(false = true) from by decide)]
  rw [hlen, hsize]
  rw [if_neg (Nat.not_lt.mpr h1), if_neg (Nat.not_lt.mpr h2),
    if_neg (Nat.not_lt.mpr h4), if_pos h8]
  simp only [emitIndexedArray]
  rw [hlen, hsize]
  exact take_prefix17 _ _ _ _ _ (leBytes_length _ _) (leBytes_length _ _)

/-- C4: where the tag-0x09 item count lives.  The decoder does read the
count from the final 8 bytes of the container: on the repo's own golden
vector (`golden09`, second conjunct) it recovers `[1, 2, 3]` with the count
3 stored in the last 8 bytes.  The encoder, however, does not produce that
layout: on `c4Items` (an array forced into the 8-byte width) the first 17
emitted bytes are the 0x09 tag, the 8-byte total length 7158278856, and
then — directly after the length field, at the head — the 8-byte item count
715827884; nothing reserves the count at the container's tail, whose final
8 bytes are the last index-table offset instead. -/
theorem c4_nine_layout :
    (endArray c4Items).take 17 =
      [0x09] ++ leBytes 8 7158278856 ++ leBytes 8 715827884 ∧
    fromBytes golden09 = .ok (.arr [.uint 1, .uint 2, .uint 3]) := by
  constructor
  · have h := c4_general 715827883 (by norm_num) (by norm_num [neededSize])
      (by norm_num [neededSize]) (by norm_num [neededSize])
      (by norm_num [neededSize])
    rw [show neededSize 8 (715827883 + 1) (1 + 715827883 * 2) = 7158278856 from
      by norm_num [neededSize]] at h
    rw [show (715827883 + 1 : Nat) = 715827884 from by norm_num] at h
    exact h
  · rfl

end VelocyPack
